import Mathlib

/-!
Verification of the canonical event log (CEL) TLV codec of
`cel/canonical_eventlog.go` and of the PCR helpers of `tpm2tools`.

Byte strings are modelled as `List Nat`, each element one byte value;
machine-integer casts in the Go code are made explicit (`% 2 ^ 32`,
`% 2 ^ 8`) or realised structurally (`natToBeBytes k` keeps only the
low `k` bytes, exactly as `binary.BigEndian.PutUintN` of a cast does).
Fallible Go functions return `Except CelErr`; a Go panic is modelled
as `Option.none`.
-/

namespace Cel

/-- CEL spec 5.1 type tag for the RECNUM field (`recnumTypeValue`). -/
def recnumTypeValue : Nat := 0

/-- CEL spec 5.1 type tag for the PCR field (`pcrTypeValue`). -/
def pcrTypeValue : Nat := 1

/-- CEL spec 5.1 type tag for the digests field (`digestsTypeValue`). -/
def digestsTypeValue : Nat := 3

/-- `tlvTypeFieldLength`: the type field is one byte. -/
def tlvTypeFieldLength : Nat := 1

/-- `tlvLengthFieldLength`: the length field is four bytes. -/
def tlvLengthFieldLength : Nat := 4

/-- `recnumValueLength`: a RECNUM value is eight bytes. -/
def recnumValueLength : Nat := 8

/-- `pcrValueLength`: a PCR value is one byte. -/
def pcrValueLength : Nat := 1

/-- The distinguishable error outcomes of the `cel` package: `eof` is
`io.EOF`, `malformedLength` the `TLV Length doesn't match the size of its
Value` error of `UnmarshalBinary`, `unexpectedType` the wrong-type errors
of `DecodeToCELR`/`UnmarshalDigests`, `bufferEndsUnexpectedly` the
`buffer ends unexpectedly` errors of `DecodeToCEL`/`UnmarshalDigests`,
`unknownAlgorithm` the `tpm2.Algorithm.Hash` failure,
`digestLengthMismatch` the length check of `createDigestField`,
`needHashAlgorithm` the empty-algorithm-list check of `AppendEvent`,
`contentError` an error returned by a `Content.GenerateDigest`
implementation, and `authorizationFailure` a policy-digest mismatch in
the sealing engine. -/
inductive CelErr
  | eof
  | malformedLength
  | unexpectedType
  | bufferEndsUnexpectedly
  | unknownAlgorithm
  | digestLengthMismatch
  | needHashAlgorithm
  | contentError
  | authorizationFailure
deriving DecidableEq, Repr

/-- Big-endian byte string of the low `k` bytes of `v`, as
`binary.BigEndian.PutUintN` writes after an unsigned cast. -/
def natToBeBytes : Nat → Nat → List Nat
  | 0, _ => []
  | k + 1, v => natToBeBytes k (v / 256) ++ [v % 256]

/-- Big-endian value of a byte string (`binary.BigEndian.UintN`). -/
def beBytesToNat (bs : List Nat) : Nat := bs.foldl (fun a b => a * 256 + b) 0

/-- A TLV per CEL spec page 16: a one-byte type and a raw value; the
length field exists only in the wire form and always equals `len(Value)`
there. -/
structure TLV where
  type : Nat
  value : List Nat
deriving DecidableEq, Repr

/-- `TLV.MarshalBinary`: `type || big-endian-u32(len(value)) || value`,
with the one-byte type field and four-byte length field written as the
literals 1 and 4. The `uint32(len(tlv.Value))` cast is realised by
`natToBeBytes 4`, which keeps exactly the low 32 bits. The Go function
also returns a never-set error, omitted here. -/
def TLV.marshalBinary (t : TLV) : List Nat :=
  t.type :: (natToBeBytes 4 t.value.length ++ t.value)

/-- `TLV.UnmarshalBinary`. `none` models the index-out-of-range panic of
`data[1:5]` when fewer than five bytes are supplied (taking `cap = len`,
as for any freshly built slice); otherwise the check
`valueLength != uint32(len(data[5:]))` is reproduced with the cast made
explicit, and success carries `{Type: data[0], Value: data[5:]}`. -/
def TLV.unmarshalBinary (data : List Nat) : Option (Except CelErr TLV) :=
  if data.length < 5 then none
  else if beBytesToNat ((data.drop 1).take 4) ≠ (data.drop 5).length % 2 ^ 32 then
    some (.error CelErr.malformedLength)
  else some (.ok ⟨data.headI, data.drop 5⟩)

/-- `UnmarshalFirstTLV`, with the `bytes.Buffer` cursor modelled as the
unread suffix: the result pairs the parse outcome with the buffer left
behind. The byte read for the type field, the up-to-four-byte read for
the length field (`valueLength := beBytesToNat (rest.take 4)`), and the
up-to-`valueLength` read for the value are followed by the short-read
checks returning `io.EOF`; a `bytes.Buffer` read consumes what it
returns, so those failure branches leave the buffer drained. -/
def UnmarshalFirstTLV (buf : List Nat) : Except CelErr TLV × List Nat :=
  match buf with
  | [] => (.error CelErr.eof, [])
  | t :: rest =>
    if rest.length < 4 then (.error CelErr.eof, [])
    else if (rest.drop 4).length < beBytesToNat (rest.take 4) then (.error CelErr.eof, [])
    else
      match TLV.unmarshalBinary
          (t :: (rest.take 4 ++ (rest.drop 4).take (beBytesToNat (rest.take 4)))) with
      | none => (.error CelErr.eof, [])
      | some (.error e) => (.error e, (rest.drop 4).drop (beBytesToNat (rest.take 4)))
      | some (.ok tlv) => (.ok tlv, (rest.drop 4).drop (beBytesToNat (rest.take 4)))

/-- Decidable equality for `Except` results, so concrete outcomes can be
compared by evaluation. -/
def exceptDecEq {ε α : Type} [DecidableEq ε] [DecidableEq α] :
    (a b : Except ε α) → Decidable (a = b)
  | .error a, .error b =>
    if h : a = b then .isTrue (congrArg Except.error h)
    else .isFalse fun hc => h (Except.error.inj hc)
  | .error _, .ok _ => .isFalse fun hc => Except.noConfusion hc
  | .ok _, .error _ => .isFalse fun hc => Except.noConfusion hc
  | .ok a, .ok b =>
    if h : a = b then .isTrue (congrArg Except.ok h)
    else .isFalse fun hc => h (Except.ok.inj hc)

instance {ε α : Type} [DecidableEq ε] [DecidableEq α] : DecidableEq (Except ε α) :=
  exceptDecEq

/-- A buffer is incomplete for `UnmarshalFirstTLV` when it ends before the
type byte, the four length bytes, or the declared number of value bytes. -/
def tlvIncomplete (buf : List Nat) : Bool :=
  match buf with
  | [] => true
  | _ :: rest =>
    rest.length < 4 || (rest.drop 4).length < beBytesToNat (rest.take 4)

/-- The `crypto.Hash` values `tpm2.HashToAlgorithm` supports. -/
inductive HashAlg
  | sha1
  | sha256
  | sha384
  | sha512
deriving DecidableEq, Repr

/-- `crypto.Hash.Size` for the supported algorithms. -/
def hashSize : HashAlg → Nat
  | .sha1 => 20
  | .sha256 => 32
  | .sha384 => 48
  | .sha512 => 64

/-- `tpm2.HashToAlgorithm`: the TPM_ALG identifier of a hash; total on the
supported set (the Go error branch is unreachable for these values). -/
def hashToAlgorithm : HashAlg → Nat
  | .sha1 => 4
  | .sha256 => 11
  | .sha384 => 12
  | .sha512 => 13

/-- `tpm2.Algorithm.Hash`: `none` models its unsupported-algorithm error. -/
def algorithmHash : Nat → Option HashAlg
  | 4 => some .sha1
  | 11 => some .sha256
  | 12 => some .sha384
  | 13 => some .sha512
  | _ => none

/-- `cel.Record`: a canonical event log record, four TLVs in fixed order. -/
structure Record where
  RECNUM : TLV
  PCR : TLV
  Digests : TLV
  Content : TLV
deriving DecidableEq, Repr

/-- The `cel.Content` capability set: produce a digest for a hash
algorithm (fallibly, as the Go interface returns an error) and produce
the event's own TLV. -/
structure Content where
  generateDigest : HashAlg → Except CelErr (List Nat)
  getTLV : TLV

/-- `cel.CEL`: an ordered list of records. -/
structure CEL where
  Records : List Record
deriving DecidableEq, Repr

/-- `createRecNumField`: type 0, value the eight-byte big-endian record
number; the `uint64` cast of the caller is absorbed by `natToBeBytes 8`,
which keeps exactly the low 64 bits. -/
def createRecNumField (recNum : Nat) : TLV :=
  ⟨recnumTypeValue, natToBeBytes recnumValueLength recNum⟩

/-- `createPCRField`: type 1, value the single PCR index byte. -/
def createPCRField (pcrNum : Nat) : TLV :=
  ⟨pcrTypeValue, [pcrNum]⟩

/-- A Go `map[crypto.Hash][]byte` modelled as an association list in
iteration order; assignment to a present key replaces its value in
place, otherwise the entry is appended. -/
def insertReplace : List (HashAlg × List Nat) → HashAlg → List Nat → List (HashAlg × List Nat)
  | [], a, d => [(a, d)]
  | (b, e) :: rest, a, d =>
    if b = a then (a, d) :: rest else (b, e) :: insertReplace rest a d

/-- The loop body of `createDigestField`: visit each (algorithm, digest)
entry in iteration order, reject a digest whose length differs from the
algorithm's size, and concatenate the marshalled nested TLVs. -/
def createDigestBytes : List (HashAlg × List Nat) → Except CelErr (List Nat)
  | [] => .ok []
  | (hashAlgo, hash) :: rest =>
    if hash.length ≠ hashSize hashAlgo then .error CelErr.digestLengthMismatch
    else
      match createDigestBytes rest with
      | .error e => .error e
      | .ok tail => .ok (TLV.marshalBinary ⟨hashToAlgorithm hashAlgo, hash⟩ ++ tail)

/-- `createDigestField`, with the randomized iteration order of the Go
map made an explicit input: the list order is the order in which the
loop visits the entries. -/
def createDigestField (digestMap : List (HashAlg × List Nat)) : Except CelErr TLV :=
  match createDigestBytes digestMap with
  | .error e => .error e
  | .ok bs => .ok ⟨digestsTypeValue, bs⟩

/-- `createCELR`: build the four canonical TLVs of a record. -/
def createCELR (recNum : Nat) (pcr : Nat) (digestsmap : List (HashAlg × List Nat))
    (event : Content) : Except CelErr Record :=
  match createDigestField digestsmap with
  | .error e => .error e
  | .ok digestField =>
    .ok ⟨createRecNumField recNum, createPCRField pcr, digestField, event.getTLV⟩

/-- The digest-gathering loop of `AppendEvent`: one digest per requested
algorithm, aborting on the first `GenerateDigest` error. -/
def generateDigestsMap : List HashAlg → Content → List (HashAlg × List Nat) →
    Except CelErr (List (HashAlg × List Nat))
  | [], _, acc => .ok acc
  | hashAlgo :: rest, event, acc =>
    match event.generateDigest hashAlgo with
    | .error e => .error e
    | .ok digest => generateDigestsMap rest event (insertReplace acc hashAlgo digest)

/-- `CEL.AppendEvent`. The Go method mutates `c.Records` only in its last
statement, after every fallible step, so it is modelled by returning the
new log; the `uint8(pcr)` cast is the explicit `% 2 ^ 8`. The unused
`tpm` handle is dropped. -/
def appendEvent (c : CEL) (pcr : Nat) (hashAlgos : List HashAlg) (event : Content) :
    Except CelErr CEL :=
  if hashAlgos.isEmpty then .error CelErr.needHashAlgorithm
  else
    match generateDigestsMap hashAlgos event [] with
    | .error e => .error e
    | .ok digestsMap =>
      match createCELR c.Records.length (pcr % 2 ^ 8) digestsMap event with
      | .error e => .error e
      | .ok celr => .ok ⟨c.Records ++ [celr]⟩

/-- A sequence of `AppendEvent` calls starting from a given log, aborting
on the first failure. -/
def buildLog : CEL → List (Nat × List HashAlg × Content) → Except CelErr CEL
  | c, [] => .ok c
  | c, (pcr, hashAlgos, event) :: rest =>
    match appendEvent c pcr hashAlgos event with
    | .error e => .error e
    | .ok c' => buildLog c' rest

/-- The loop of `UnmarshalDigests`, reading nested TLVs while the buffer
is non-empty. The fuel argument only bounds the iteration count; the
wrapper passes the buffer length, which the loop can never exhaust since
every successful read consumes at least five bytes. -/
def UnmarshalDigestsAux : Nat → List (HashAlg × List Nat) → List Nat →
    Except CelErr (List (HashAlg × List Nat))
  | _, acc, [] => .ok acc
  | 0, _, _ :: _ => .error CelErr.eof
  | fuel + 1, acc, b :: bs =>
    match UnmarshalFirstTLV (b :: bs) with
    | (.error CelErr.eof, _) => .error CelErr.bufferEndsUnexpectedly
    | (.error e, _) => .error e
    | (.ok digestTLV, rest) =>
      match algorithmHash digestTLV.type with
      | none => .error CelErr.unknownAlgorithm
      | some hashAlg => UnmarshalDigestsAux fuel (insertReplace acc hashAlg digestTLV.value) rest

/-- `UnmarshalDigests`: check the outer type tag, then parse nested
digest TLVs until the outer value is exhausted. No digest-size check is
performed on the nested values. -/
def UnmarshalDigests (tlv : TLV) : Except CelErr (List (HashAlg × List Nat)) :=
  if tlv.type ≠ digestsTypeValue then .error CelErr.unexpectedType
  else UnmarshalDigestsAux tlv.value.length [] tlv.value

/-- Concatenated wire encoding of a list of nested digest TLVs, keyed by
raw algorithm identifiers. -/
def encodeDigestEntries : List (Nat × List Nat) → List Nat
  | [] => []
  | (alg, digest) :: rest => TLV.marshalBinary ⟨alg, digest⟩ ++ encodeDigestEntries rest

/-- `Record.EncodeCELR`: the four TLV encodings, appended to the output
buffer in fixed order (the buffer writes cannot fail). -/
def Record.encodeCELR (r : Record) : List Nat :=
  r.RECNUM.marshalBinary ++ (r.PCR.marshalBinary ++
    (r.Digests.marshalBinary ++ r.Content.marshalBinary))

/-- The loop of `CEL.EncodeCEL` over a record list. -/
def encodeRecords : List Record → List Nat
  | [] => []
  | r :: rest => r.encodeCELR ++ encodeRecords rest

/-- `CEL.EncodeCEL`: concatenation of each record's encoding in order. -/
def EncodeCEL (c : CEL) : List Nat := encodeRecords c.Records

/-- `DecodeToCELR`: read four TLVs in order, checking the type tag of the
first three positions; the content TLV's type is not checked. Errors
propagate with the shared buffer already partially consumed, so only the
parse outcome is returned on failure. -/
def DecodeToCELR (buf : List Nat) : Except CelErr (Record × List Nat) :=
  match UnmarshalFirstTLV buf with
  | (.error e, _) => .error e
  | (.ok recnum, buf1) =>
    if recnum.type ≠ recnumTypeValue then .error CelErr.unexpectedType
    else
      match UnmarshalFirstTLV buf1 with
      | (.error e, _) => .error e
      | (.ok pcr, buf2) =>
        if pcr.type ≠ pcrTypeValue then .error CelErr.unexpectedType
        else
          match UnmarshalFirstTLV buf2 with
          | (.error e, _) => .error e
          | (.ok digests, buf3) =>
            if digests.type ≠ digestsTypeValue then .error CelErr.unexpectedType
            else
              match UnmarshalFirstTLV buf3 with
              | (.error e, _) => .error e
              | (.ok content, buf4) => .ok (⟨recnum, pcr, digests, content⟩, buf4)

/-- The loop of `DecodeToCEL`, reading records while the buffer is
non-empty and turning a mid-record `io.EOF` into the distinct
`buffer ends unexpectedly` error. The fuel argument only bounds the
iteration count; the wrapper passes the buffer length, which the loop
can never exhaust since every successful record read consumes bytes. -/
def DecodeToCELAux : Nat → List Nat → Except CelErr (List Record)
  | _, [] => .ok []
  | 0, _ :: _ => .error CelErr.eof
  | fuel + 1, b :: bs =>
    match DecodeToCELR (b :: bs) with
    | .error CelErr.eof => .error CelErr.bufferEndsUnexpectedly
    | .error e => .error e
    | .ok (celr, rest) =>
      match DecodeToCELAux fuel rest with
      | .error e => .error e
      | .ok records => .ok (celr :: records)

/-- `DecodeToCEL`: decode records until the buffer is exhausted. -/
def DecodeToCEL (buf : List Nat) : Except CelErr CEL :=
  match DecodeToCELAux buf.length buf with
  | .error e => .error e
  | .ok records => .ok ⟨records⟩

/-- A well-formed TLV: the type fits in a byte, every value element is a
byte, and the value length is representable in the four-byte length
field. -/
def wfTLV (t : TLV) : Bool :=
  t.type < 2 ^ 8 && t.value.length < 2 ^ 32 && t.value.all (· < 2 ^ 8)

/-- A valid record per the claim: each of the four TLVs is well-formed
and the first three carry the fixed type tags 0, 1 and 3. -/
def validRecord (r : Record) : Bool :=
  wfTLV r.RECNUM && wfTLV r.PCR && wfTLV r.Digests && wfTLV r.Content &&
    r.RECNUM.type == recnumTypeValue && r.PCR.type == pcrTypeValue &&
    r.Digests.type == digestsTypeValue

/-- A concrete `Content` used to exercise the theorems: its digest for
each algorithm is the all-zero string of that algorithm's size, and its
event TLV is fixed. -/
def constContent : Content :=
  ⟨fun a => .ok (List.replicate (hashSize a) 0), ⟨80, [1, 2, 3]⟩⟩

/-- A `Content` whose digest generation always fails. -/
def failingContent : Content :=
  ⟨fun _ => .error CelErr.contentError, ⟨80, []⟩⟩

end Cel

namespace Tpm2tools

/-- `computePCRValue` (`seal_test.go`): fold the extensions over the base
digest, hashing `base || extension` at each step. The SHA-256 call of
the Go code is the abstract hash parameter `H`, since the hash itself is
external library code. -/
def computePCRValue (H : List Nat → List Nat) (base : List Nat)
    (extensions : List (List Nat)) : List Nat :=
  extensions.foldl (fun b extension => H (b ++ extension)) base

/-- Modelled from the spec: `extend_chain` (spec 4.4) as written there,
`next = Hash(base || extension)` for each extension in order starting
from the base digest; stated separately from `computePCRValue` so the
source loop can be compared against the spec's recursion. -/
def extendChain (H : List Nat → List Nat) (base : List Nat) :
    List (List Nat) → List Nat
  | [] => base
  | e :: es => extendChain H (H (base ++ e)) es

/-- A PCR selection: one hash algorithm and a list of register indices. -/
structure PCRSelection where
  hash : Cel.HashAlg
  pcrs : List Nat
deriving DecidableEq, Repr

/-- Modelled from the spec: the policy-assertion variants of spec 3/4.5
(`CurrentPCRs`, `ExpectedPCRs`, `TargetPCRs`); the sealing engine itself
is not part of the sources, only its tests are. -/
inductive SealOpt
  | currentPCRs (sel : PCRSelection)
  | expectedPCRs (hash : Cel.HashAlg) (vals : List (Nat × List Nat))
  | targetPCRs (hash : Cel.HashAlg) (vals : List (Nat × List Nat))

/-- Live register state: register index to current digest value. -/
def RegState : Type := Nat → List Nat

/-- The zero-filled initial policy digest of a fresh session (spec 4.6
step 1). -/
def zeroDigest (a : Cel.HashAlg) : List Nat := List.replicate (Cel.hashSize a) 0

/-- The fixed numeric identifier of the assert-register-state policy
command (TPM_CC_PolicyPCR, 0x0000017F), big-endian. -/
def policyPCRCommandCode : List Nat := [0, 0, 1, 127]

/-- The register-index bitmap of a selection encoding: three bytes, bit
`i % 8` of byte `i / 8` set for each selected index `i`. -/
def pcrBitmap (pcrs : List Nat) : List Nat :=
  (List.range 3).map fun j =>
    (pcrs.foldl (fun acc i => if i / 8 = j then acc ||| 2 ^ (i % 8) else acc) 0) % 256

/-- Modelled from the spec: the canonical encoding of (algorithm
identifier, register index bitmap) used in spec 4.6 step 3. -/
def selectionEncoding (sel : PCRSelection) : List Nat :=
  Cel.hashToAlgorithm sel.hash :: pcrBitmap sel.pcrs

/-- Insertion into a list of (index, digest) pairs sorted by index. -/
def insertSorted (p : Nat × List Nat) : List (Nat × List Nat) → List (Nat × List Nat)
  | [] => [p]
  | q :: rest => if p.1 ≤ q.1 then p :: q :: rest else q :: insertSorted p rest

/-- Sort (index, digest) pairs into ascending register-index order. -/
def sortByIndex (l : List (Nat × List Nat)) : List (Nat × List Nat) :=
  l.foldr insertSorted []

/-- Read the live values of the selected registers (the external
`read_registers` collaborator of spec 6). -/
def readPCRs (st : RegState) (sel : PCRSelection) : List (Nat × List Nat) :=
  sel.pcrs.map fun i => (i, st i)

/-- Modelled from the spec: `computePCRSessionAuth` (spec 4.6), generic
over the hash `H`: hash the selected register values in ascending index
order, then extend the zero session digest with the policy command
identifier, the selection encoding and that registers digest. -/
def computePCRSessionAuth (H : List Nat → List Nat) (sel : PCRSelection)
    (vals : List (Nat × List Nat)) : List Nat :=
  let registersDigest := H (((sortByIndex vals).map Prod.snd).foldr (· ++ ·) [])
  H (zeroDigest sel.hash ++ policyPCRCommandCode ++ selectionEncoding sel ++ registersDigest)

/-- Modelled from the spec: a sealed blob (spec 3), bound to one
authorization policy digest; the parent-key encryption is the external
collaborator, so the payload is carried as-is. -/
structure SealedBlob where
  sealedSecret : List Nat
  authPolicy : List Nat
  sel : PCRSelection

/-- Modelled from the spec: `Seal` (spec 4.7): evaluate the assertion to
a register-value map (live read for `CurrentPCRs`, the snapshot itself
for the explicit variants), compute the authorization digest, and bind
the secret to it. -/
def Seal (H : List Nat → List Nat) (st : RegState) (secret : List Nat) (opt : SealOpt) :
    SealedBlob :=
  match opt with
  | .currentPCRs sel => ⟨secret, computePCRSessionAuth H sel (readPCRs st sel), sel⟩
  | .expectedPCRs hash vals =>
    ⟨secret, computePCRSessionAuth H ⟨hash, vals.map Prod.fst⟩ vals, ⟨hash, vals.map Prod.fst⟩⟩
  | .targetPCRs hash vals =>
    ⟨secret, computePCRSessionAuth H ⟨hash, vals.map Prod.fst⟩ vals, ⟨hash, vals.map Prod.fst⟩⟩

/-- Modelled from the spec: the register-value map a certify assertion
evaluates to (spec 4.5). -/
def evalAssertion (st : RegState) : SealOpt → PCRSelection × List (Nat × List Nat)
  | .currentPCRs sel => (sel, readPCRs st sel)
  | .expectedPCRs hash vals => (⟨hash, vals.map Prod.fst⟩, vals)
  | .targetPCRs hash vals => (⟨hash, vals.map Prod.fst⟩, vals)

/-- Modelled from the spec: `Unseal` (spec 4.7): with `certify = none`
the blob's policy is satisfied by a live session over the current
register state for the blob's selection; with an assertion supplied, its
evaluated register-value map is certified instead. Release happens only
when the computed digest equals the blob's embedded policy digest. -/
def Unseal (H : List Nat → List Nat) (st : RegState) (blob : SealedBlob)
    (certify : Option SealOpt) : Except Cel.CelErr (List Nat) :=
  match certify with
  | none =>
    if computePCRSessionAuth H blob.sel (readPCRs st blob.sel) = blob.authPolicy then
      .ok blob.sealedSecret
    else .error Cel.CelErr.authorizationFailure
  | some opt =>
    let ev := evalAssertion st opt
    if computePCRSessionAuth H ev.1 ev.2 = blob.authPolicy then
      .ok blob.sealedSecret
    else .error Cel.CelErr.authorizationFailure

end Tpm2tools

namespace Cel

theorem natToBeBytes_length (k v : Nat) : (natToBeBytes k v).length = k := by
  induction k generalizing v with
  | zero => rfl
  | succ k ih => simp [natToBeBytes, ih]

theorem beBytesToNat_append_singleton (xs : List Nat) (y : Nat) :
    beBytesToNat (xs ++ [y]) = beBytesToNat xs * 256 + y := by
  simp [beBytesToNat, List.foldl_append]

theorem beBytesToNat_natToBeBytes (k v : Nat) (h : v < 256 ^ k) :
    beBytesToNat (natToBeBytes k v) = v := by
  induction k generalizing v with
  | zero =>
    interval_cases v
    rfl
  | succ k ih =>
    have hdiv : v / 256 < 256 ^ k := by
      rw [Nat.div_lt_iff_lt_mul (by norm_num : (0 : Nat) < 256)]
      calc v < 256 ^ (k + 1) := h
        _ = 256 ^ k * 256 := by ring
    rw [natToBeBytes, beBytesToNat_append_singleton, ih _ hdiv]
    omega

theorem pow256_four : (256 : Nat) ^ 4 = 2 ^ 32 := by norm_num

/-- The key TLV-level round-trip: parsing a marshalled TLV followed by
anything returns that TLV and leaves exactly the trailing bytes. -/
theorem UnmarshalFirstTLV_marshalBinary (t : TLV) (rest : List Nat)
    (h : t.value.length < 2 ^ 32) :
    UnmarshalFirstTLV (t.marshalBinary ++ rest) = (.ok t, rest) := by
  obtain ⟨ty, v⟩ := t
  have h' : v.length < 2 ^ 32 := h
  have h4 : (natToBeBytes 4 v.length).length = 4 := natToBeBytes_length _ _
  have hbe : beBytesToNat (natToBeBytes 4 v.length) = v.length := by
    apply beBytesToNat_natToBeBytes
    rw [pow256_four]
    exact h'
  have hshape : TLV.marshalBinary ⟨ty, v⟩ ++ rest =
      ty :: (natToBeBytes 4 v.length ++ (v ++ rest)) := by
    simp [TLV.marshalBinary]
  rw [hshape, UnmarshalFirstTLV]
  rw [List.take_left' h4, List.drop_left' h4, hbe]
  rw [if_neg (by simp only [List.length_append, h4]; omega)]
  rw [if_neg (by simp only [List.length_append]; omega)]
  have htake : (v ++ rest).take v.length = v := List.take_left' rfl
  have hdrop : (v ++ rest).drop v.length = rest := List.drop_left' rfl
  rw [htake, hdrop]
  have hinner : TLV.unmarshalBinary
      (ty :: (natToBeBytes 4 v.length ++ v)) = some (.ok ⟨ty, v⟩) := by
    rw [TLV.unmarshalBinary]
    rw [if_neg (by simp only [List.length_cons, List.length_append, h4]; omega)]
    have hdrop1 : (ty :: (natToBeBytes 4 v.length ++ v)).drop 1 =
        natToBeBytes 4 v.length ++ v := rfl
    have hdrop5 : (ty :: (natToBeBytes 4 v.length ++ v)).drop 5 = v := by
      have hstep : (ty :: (natToBeBytes 4 v.length ++ v)).drop 5 =
          (natToBeBytes 4 v.length ++ v).drop 4 := rfl
      rw [hstep, List.drop_left' h4]
    rw [hdrop1, hdrop5, List.take_left' h4, hbe]
    have hmod : v.length % 2 ^ 32 = v.length := Nat.mod_eq_of_lt h'
    rw [hmod, if_neg (by exact fun hc => hc rfl)]
    rfl
  rw [hinner]

theorem createDigestBytes_isOk (l : List (HashAlg × List Nat)) :
    (createDigestBytes l).isOk = l.all fun p => p.2.length == hashSize p.1 := by
  induction l with
  | nil => rfl
  | cons p rest ih =>
    obtain ⟨a, d⟩ := p
    by_cases hd : d.length = hashSize a
    · rw [createDigestBytes, if_neg (not_not_intro hd), List.all_cons]
      have hbeq : (d.length == hashSize a) = true := by simp [hd]
      rw [hbeq, Bool.true_and, ← ih]
      cases hrec : createDigestBytes rest <;>
        simp [hrec, Except.isOk, Except.toBool]
    · rw [createDigestBytes, if_pos hd, List.all_cons]
      have hbeq : (d.length == hashSize a) = false := by simp [hd]
      rw [hbeq, Bool.false_and]
      simp [Except.isOk, Except.toBool]

/-- C9: `TLV.UnmarshalBinary` indexes out of range (modelled as `none`)
exactly on inputs shorter than the five header bytes; any input of at
least five bytes yields either the length-mismatch error or a parsed
TLV, with no out-of-bounds access. -/
theorem c9_unmarshalBinary_totality (data : List Nat) :
    (TLV.unmarshalBinary data = none ↔ data.length < 5)
    ∧ (5 ≤ data.length →
        TLV.unmarshalBinary data = some (.error CelErr.malformedLength)
        ∨ ∃ t : TLV, TLV.unmarshalBinary data = some (.ok t)) := by
  by_cases h : data.length < 5
  · rw [TLV.unmarshalBinary, if_pos h]
    exact ⟨iff_of_true rfl h, fun hge => absurd h (by omega)⟩
  · rw [TLV.unmarshalBinary, if_neg h]
    constructor
    · split
      · exact iff_of_false (by simp) h
      · exact iff_of_false (by simp) h
    · intro _
      split
      · exact Or.inl rfl
      · exact Or.inr ⟨_, rfl⟩

/-- C9 witness: the theorem applied at a concrete five-byte input, the
length hypothesis discharged there. -/
theorem c9_unmarshalBinary_totality_witness :
    TLV.unmarshalBinary [0, 0, 0, 0, 0] = some (.error CelErr.malformedLength)
    ∨ ∃ t : TLV, TLV.unmarshalBinary [0, 0, 0, 0, 0] = some (.ok t) :=
  (c9_unmarshalBinary_totality [0, 0, 0, 0, 0]).2 (by decide)

/-- C3 counterexample: on the buffer `[0, 0]` — a type byte followed by a
truncated length field — `UnmarshalFirstTLV` signals `io.EOF`, yet the
cursor has moved: the buffer is left empty, not at `[0, 0]` as the claim
requires. -/
theorem c3_cursor_counterexample :
    (UnmarshalFirstTLV [0, 0]).1 = .error CelErr.eof
    ∧ (UnmarshalFirstTLV [0, 0]).2 = []
    ∧ (UnmarshalFirstTLV [0, 0]).2 ≠ [0, 0] := by
  refine ⟨rfl, rfl, ?_⟩
  decide

/-- C3 corrected: `UnmarshalFirstTLV` signals `io.EOF` — never the
length-mismatch error — whenever the stream ends before the type byte,
the length field or the declared value bytes are available, but the
bytes already read stay consumed (the drained buffer is returned; the
cursor is not restored); on success the cursor has advanced exactly past
the one TLV read. -/
theorem c3_unmarshalFirstTLV_incomplete (buf : List Nat) :
    (tlvIncomplete buf = true → UnmarshalFirstTLV buf = (.error CelErr.eof, []))
    ∧ (∀ t rest, UnmarshalFirstTLV buf = (.ok t, rest) →
        buf = t.type :: ((buf.drop 1).take 4 ++ (t.value ++ rest))
        ∧ t.value.length = beBytesToNat ((buf.drop 1).take 4)) := by
  match buf with
  | [] =>
    refine ⟨fun _ => rfl, fun t rest h => ?_⟩
    simp [UnmarshalFirstTLV] at h
  | b :: bs =>
    by_cases h4 : bs.length < 4
    · refine ⟨fun _ => ?_, fun t rest h => ?_⟩
      · rw [UnmarshalFirstTLV, if_pos h4]
      · rw [UnmarshalFirstTLV, if_pos h4] at h
        simp at h
    · by_cases hv : (bs.drop 4).length < beBytesToNat (bs.take 4)
      · refine ⟨fun _ => ?_, fun t rest h => ?_⟩
        · rw [UnmarshalFirstTLV, if_neg h4, if_pos hv]
        · rw [UnmarshalFirstTLV, if_neg h4, if_pos hv] at h
          simp at h
      · have hT4 : (bs.take 4).length = 4 := by
          rw [List.length_take]
          omega
        have hTL : ((bs.drop 4).take (beBytesToNat (bs.take 4))).length =
            beBytesToNat (bs.take 4) := by
          rw [List.length_take]
          omega
        have hnotinc : ∀ hinc : tlvIncomplete (b :: bs) = true, False := by
          intro hinc
          simp only [tlvIncomplete, Bool.or_eq_true, decide_eq_true_eq] at hinc
          rcases hinc with hc | hc
          · exact h4 hc
          · exact hv hc
        refine ⟨fun hinc => absurd hinc (fun hc => hnotinc hc), fun t rest h => ?_⟩
        rw [UnmarshalFirstTLV, if_neg h4, if_neg hv] at h
        by_cases hL : beBytesToNat (bs.take 4) < 2 ^ 32
        · have hinner : TLV.unmarshalBinary
              (b :: (bs.take 4 ++ (bs.drop 4).take (beBytesToNat (bs.take 4)))) =
              some (.ok ⟨b, (bs.drop 4).take (beBytesToNat (bs.take 4))⟩) := by
            rw [TLV.unmarshalBinary]
            rw [if_neg (by simp only [List.length_cons, List.length_append, hT4, hTL]; omega)]
            have hd1 : (b :: (bs.take 4 ++ (bs.drop 4).take (beBytesToNat (bs.take 4)))).drop 1 =
                bs.take 4 ++ (bs.drop 4).take (beBytesToNat (bs.take 4)) := rfl
            have hd5 : (b :: (bs.take 4 ++ (bs.drop 4).take (beBytesToNat (bs.take 4)))).drop 5 =
                (bs.drop 4).take (beBytesToNat (bs.take 4)) := by
              have hstep : (b :: (bs.take 4 ++
                  (bs.drop 4).take (beBytesToNat (bs.take 4)))).drop 5 =
                  (bs.take 4 ++ (bs.drop 4).take (beBytesToNat (bs.take 4))).drop 4 := rfl
              rw [hstep, List.drop_left' hT4]
            rw [hd1, hd5, List.take_left' hT4, hTL, Nat.mod_eq_of_lt hL]
            rw [if_neg (by exact fun hc => hc rfl)]
            rfl
          rw [hinner] at h
          have h' : ((.ok ⟨b, (bs.drop 4).take (beBytesToNat (bs.take 4))⟩ :
                Except CelErr TLV),
              (bs.drop 4).drop (beBytesToNat (bs.take 4))) = (.ok t, rest) := h
          obtain ⟨tty, tval⟩ := t
          simp only [Prod.mk.injEq, Except.ok.injEq, TLV.mk.injEq] at h'
          obtain ⟨⟨hb', hX⟩, hrest⟩ := h'
          subst hb'
          subst hX
          subst hrest
          constructor
          · show b :: bs = b :: ((bs.take 4) ++ _)
            rw [List.take_append_drop, List.take_append_drop]
          · show ((bs.drop 4).take (beBytesToNat (bs.take 4))).length =
              beBytesToNat (bs.take 4)
            exact hTL
        · have hinner : TLV.unmarshalBinary
              (b :: (bs.take 4 ++ (bs.drop 4).take (beBytesToNat (bs.take 4)))) =
              some (.error CelErr.malformedLength) := by
            rw [TLV.unmarshalBinary]
            rw [if_neg (by simp only [List.length_cons, List.length_append, hT4, hTL]; omega)]
            have hd1 : (b :: (bs.take 4 ++ (bs.drop 4).take (beBytesToNat (bs.take 4)))).drop 1 =
                bs.take 4 ++ (bs.drop 4).take (beBytesToNat (bs.take 4)) := rfl
            have hd5 : (b :: (bs.take 4 ++ (bs.drop 4).take (beBytesToNat (bs.take 4)))).drop 5 =
                (bs.drop 4).take (beBytesToNat (bs.take 4)) := by
              have hstep : (b :: (bs.take 4 ++
                  (bs.drop 4).take (beBytesToNat (bs.take 4)))).drop 5 =
                  (bs.take 4 ++ (bs.drop 4).take (beBytesToNat (bs.take 4))).drop 4 := rfl
              rw [hstep, List.drop_left' hT4]
            rw [hd1, hd5, List.take_left' hT4, hTL]
            rw [if_pos (by
              have hmlt : beBytesToNat (bs.take 4) % 2 ^ 32 < 2 ^ 32 :=
                Nat.mod_lt _ (by norm_num)
              omega)]
          rw [hinner] at h
          have h' : ((.error CelErr.malformedLength : Except CelErr TLV),
              (bs.drop 4).drop (beBytesToNat (bs.take 4))) = (.ok t, rest) := h
          simp at h'

/-- C3 witness: the corrected theorem applied at concrete inputs — a
truncated buffer drained on failure, and a six-byte buffer whose single
TLV is consumed exactly. -/
theorem c3_unmarshalFirstTLV_incomplete_witness :
    UnmarshalFirstTLV [7] = (.error CelErr.eof, [])
    ∧ [9, 0, 0, 0, 1, 5] = (9 : Nat) ::
        ((([9, 0, 0, 0, 1, 5].drop 1).take 4) ++ ([5] ++ [])) :=
  ⟨(c3_unmarshalFirstTLV_incomplete [7]).1 (by decide),
    ((c3_unmarshalFirstTLV_incomplete [9, 0, 0, 0, 1, 5]).2 ⟨9, [5]⟩ [] (by rfl)).1⟩

/-- C5 counterexample: `createCELR` on the empty digest map succeeds —
returning a record whose DIGESTS TLV carries an empty value — instead of
failing as the claim requires. -/
theorem c5_empty_map_counterexample :
    createCELR 0 0 [] constContent =
      .ok ⟨⟨recnumTypeValue, natToBeBytes recnumValueLength 0⟩, ⟨pcrTypeValue, [0]⟩,
        ⟨digestsTypeValue, []⟩, constContent.getTLV⟩ := rfl

/-- C5 corrected: `createCELR` performs no emptiness check (that check
lives in `AppendEvent`): it returns a record exactly when every digest's
byte length equals its algorithm's size — the empty map included — and
on success the record consists of the four canonical field values. -/
theorem c5_createCELR_characterisation (recNum pcr : Nat)
    (l : List (HashAlg × List Nat)) (event : Content) :
    ((createCELR recNum pcr l event).isOk =
      l.all fun p => p.2.length == hashSize p.1)
    ∧ (∀ r, createCELR recNum pcr l event = .ok r →
        r.RECNUM = createRecNumField recNum ∧ r.PCR = createPCRField pcr ∧
          r.Digests.type = digestsTypeValue ∧ r.Content = event.getTLV) := by
  constructor
  · rw [← createDigestBytes_isOk]
    cases hb : createDigestBytes l <;>
      simp [createCELR, createDigestField, hb, Except.isOk, Except.toBool]
  · intro r h
    rw [createCELR] at h
    cases hb : createDigestField l with
    | error e => rw [hb] at h; exact absurd h (by simp)
    | ok d =>
      rw [hb] at h
      have hr : r = ⟨createRecNumField recNum, createPCRField pcr, d, event.getTLV⟩ := by
        cases h
        rfl
      have hd : d.type = digestsTypeValue := by
        rw [createDigestField] at hb
        cases hbb : createDigestBytes l <;> rw [hbb] at hb
        · exact absurd hb (by simp)
        · cases hb
          rfl
      subst hr
      exact ⟨rfl, rfl, hd, rfl⟩

/-- C5 witness: the corrected theorem applied to a concrete one-entry map
with a correctly sized digest, the success hypothesis discharged by
evaluation. -/
theorem c5_createCELR_characterisation_witness :
    (⟨createRecNumField 1, createPCRField 2,
        ⟨digestsTypeValue, TLV.marshalBinary ⟨hashToAlgorithm .sha1, List.replicate 20 7⟩⟩,
        constContent.getTLV⟩ : Record).RECNUM = createRecNumField 1
    ∧ (⟨createRecNumField 1, createPCRField 2,
        ⟨digestsTypeValue, TLV.marshalBinary ⟨hashToAlgorithm .sha1, List.replicate 20 7⟩⟩,
        constContent.getTLV⟩ : Record).PCR = createPCRField 2
    ∧ (⟨createRecNumField 1, createPCRField 2,
        ⟨digestsTypeValue, TLV.marshalBinary ⟨hashToAlgorithm .sha1, List.replicate 20 7⟩⟩,
        constContent.getTLV⟩ : Record).Digests.type = digestsTypeValue
    ∧ (⟨createRecNumField 1, createPCRField 2,
        ⟨digestsTypeValue, TLV.marshalBinary ⟨hashToAlgorithm .sha1, List.replicate 20 7⟩⟩,
        constContent.getTLV⟩ : Record).Content = constContent.getTLV :=
  (c5_createCELR_characterisation 1 2 [(.sha1, List.replicate 20 7)] constContent).2 _ rfl

/-- C10: with the Go map's randomized iteration order made explicit,
`createDigestField` is order-independent on maps of at most one entry,
while a two-algorithm map admits two iteration orders whose encodings
differ byte for byte. -/
theorem c10_digest_encoding_order :
    (∀ l₁ l₂ : List (HashAlg × List Nat), l₁.Perm l₂ → l₁.length ≤ 1 →
        createDigestField l₁ = createDigestField l₂)
    ∧ ∃ l₁ l₂ : List (HashAlg × List Nat), l₁.Perm l₂ ∧ (l₁.map Prod.fst).Nodup ∧
        createDigestField l₁ ≠ createDigestField l₂ := by
  constructor
  · intro l₁ l₂ hp hlen
    match l₁ with
    | [] =>
      rw [← hp.symm.eq_nil]
    | [a] =>
      rw [← List.singleton_perm.mp hp]
    | a :: b :: rest =>
      simp at hlen
  · refine ⟨[(.sha1, List.replicate 20 0), (.sha256, List.replicate 32 0)],
      [(.sha256, List.replicate 32 0), (.sha1, List.replicate 20 0)],
      ?_, by decide, by decide⟩
    decide

/-- C10 witness: the order-independence part applied at a concrete
singleton map, its hypotheses discharged there. -/
theorem c10_digest_encoding_order_witness :
    createDigestField [(HashAlg.sha256, List.replicate 32 0)] =
      createDigestField [(HashAlg.sha256, List.replicate 32 0)] :=
  c10_digest_encoding_order.1 _ _ (List.Perm.refl _) (by decide)

theorem algorithmHash_hashToAlgorithm (a : HashAlg) :
    algorithmHash (hashToAlgorithm a) = some a := by
  cases a <;> rfl

theorem marshalBinary_length (t : TLV) : t.marshalBinary.length = 5 + t.value.length := by
  simp [TLV.marshalBinary, natToBeBytes_length]
  omega

theorem UnmarshalDigestsAux_nonempty (fuel : Nat) (acc : List (HashAlg × List Nat))
    (buf : List Nat) (h : buf ≠ []) :
    UnmarshalDigestsAux (fuel + 1) acc buf =
      match UnmarshalFirstTLV buf with
      | (.error CelErr.eof, _) => .error CelErr.bufferEndsUnexpectedly
      | (.error e, _) => .error e
      | (.ok digestTLV, rest) =>
        match algorithmHash digestTLV.type with
        | none => .error CelErr.unknownAlgorithm
        | some hashAlg =>
          UnmarshalDigestsAux fuel (insertReplace acc hashAlg digestTLV.value) rest := by
  cases buf with
  | nil => exact absurd rfl h
  | cons b bs => rfl

theorem UnmarshalDigestsAux_encode (entries : List (HashAlg × List Nat)) :
    ∀ (fuel : Nat) (acc : List (HashAlg × List Nat)),
    (encodeDigestEntries (entries.map fun p => (hashToAlgorithm p.1, p.2))).length ≤ fuel →
    (entries.all fun p => p.2.length < 2 ^ 32) = true →
    UnmarshalDigestsAux fuel acc
        (encodeDigestEntries (entries.map fun p => (hashToAlgorithm p.1, p.2))) =
      .ok (entries.foldl (fun acc p => insertReplace acc p.1 p.2) acc) := by
  induction entries with
  | nil =>
    intro fuel acc _ _
    cases fuel <;> rfl
  | cons p rest ih =>
    intro fuel acc hfuel hall
    obtain ⟨a, d⟩ := p
    have hshape : encodeDigestEntries (((a, d) :: rest).map fun p => (hashToAlgorithm p.1, p.2)) =
        TLV.marshalBinary ⟨hashToAlgorithm a, d⟩ ++
          encodeDigestEntries (rest.map fun p => (hashToAlgorithm p.1, p.2)) := rfl
    have hdlen : d.length < 2 ^ 32 := by
      have := hall
      simp only [List.all_cons, Bool.and_eq_true, decide_eq_true_eq] at this
      exact this.1
    have hall' : (rest.all fun p => p.2.length < 2 ^ 32) = true := by
      have := hall
      simp only [List.all_cons, Bool.and_eq_true, decide_eq_true_eq] at this
      simpa using this.2
    have hne : TLV.marshalBinary ⟨hashToAlgorithm a, d⟩ ++
        encodeDigestEntries (rest.map fun p => (hashToAlgorithm p.1, p.2)) ≠ [] := by
      simp [TLV.marshalBinary]
    have hlen : (TLV.marshalBinary ⟨hashToAlgorithm a, d⟩ ++
        encodeDigestEntries (rest.map fun p => (hashToAlgorithm p.1, p.2))).length =
        5 + d.length + (encodeDigestEntries (rest.map fun p =>
          (hashToAlgorithm p.1, p.2))).length := by
      rw [List.length_append, marshalBinary_length]
    cases fuel with
    | zero =>
      exfalso
      rw [hshape, hlen] at hfuel
      omega
    | succ f =>
      rw [hshape, UnmarshalDigestsAux_nonempty f acc _ hne]
      rw [UnmarshalFirstTLV_marshalBinary ⟨hashToAlgorithm a, d⟩ _ hdlen]
      show (match algorithmHash (hashToAlgorithm a) with
        | none => (.error CelErr.unknownAlgorithm :
            Except CelErr (List (HashAlg × List Nat)))
        | some hashAlg => UnmarshalDigestsAux f (insertReplace acc hashAlg d)
            (encodeDigestEntries (rest.map fun p : HashAlg × List Nat =>
              (hashToAlgorithm p.1, p.2)))) = _
      rw [algorithmHash_hashToAlgorithm a]
      show UnmarshalDigestsAux f (insertReplace acc a d)
          (encodeDigestEntries (rest.map fun p : HashAlg × List Nat =>
            (hashToAlgorithm p.1, p.2))) = _
      rw [ih f (insertReplace acc a d) ?_ hall']
      · rfl
      · rw [hshape, hlen] at hfuel
        omega

/-- C6 counterexample: a DIGESTS TLV holding one nested SHA-256 entry
whose value is only two bytes long is accepted by `UnmarshalDigests` —
the wrong-size digest is returned as-is instead of being rejected. -/
theorem c6_wrong_size_counterexample :
    UnmarshalDigests ⟨digestsTypeValue, TLV.marshalBinary ⟨11, [170, 187]⟩⟩ =
      .ok [(HashAlg.sha256, [170, 187])] := by
  decide

/-- C6 corrected: `UnmarshalDigests` parses nested TLVs until the outer
value is exhausted and fails when the buffer ends mid-TLV or when a
nested type byte is not a recognized algorithm identifier; it performs
no digest-size validation, accepting value bytes of any length (sizes
are checked at encode time by `createDigestField`, not at decode). -/
theorem c6_unmarshalDigests_characterisation :
    (∀ entries : List (HashAlg × List Nat),
        (entries.all fun p => p.2.length < 2 ^ 32) = true →
        UnmarshalDigests ⟨digestsTypeValue,
            encodeDigestEntries (entries.map fun p => (hashToAlgorithm p.1, p.2))⟩ =
          .ok (entries.foldl (fun acc p => insertReplace acc p.1 p.2) []))
    ∧ UnmarshalDigests ⟨digestsTypeValue, TLV.marshalBinary ⟨5, []⟩⟩ =
        .error CelErr.unknownAlgorithm
    ∧ UnmarshalDigests ⟨digestsTypeValue, [11]⟩ = .error CelErr.bufferEndsUnexpectedly := by
  refine ⟨fun entries hall => ?_, by decide, by decide⟩
  rw [UnmarshalDigests, if_neg (by exact fun hc => hc rfl)]
  exact UnmarshalDigestsAux_encode entries _ [] le_rfl hall

/-- C6 witness: the corrected theorem's general part applied at a
concrete single-entry digest set (of deliberately wrong size, showing it
is accepted), the hypotheses discharged by evaluation. -/
theorem c6_unmarshalDigests_characterisation_witness :
    UnmarshalDigests ⟨digestsTypeValue,
        encodeDigestEntries ([((HashAlg.sha256 : HashAlg), [0])].map fun p =>
          (hashToAlgorithm p.1, p.2))⟩ =
      .ok ([((HashAlg.sha256 : HashAlg), [0])].foldl
        (fun acc p => insertReplace acc p.1 p.2) []) :=
  c6_unmarshalDigests_characterisation.1 [(HashAlg.sha256, [0])] (by decide)

theorem createCELR_ok_fields (recNum pcr : Nat) (m : List (HashAlg × List Nat))
    (event : Content) (r : Record) (h : createCELR recNum pcr m event = .ok r) :
    r.RECNUM = createRecNumField recNum ∧ r.PCR = createPCRField pcr ∧
      r.Content = event.getTLV := by
  rw [createCELR] at h
  cases hb : createDigestField m with
  | error e =>
    rw [hb] at h
    exact absurd h (by simp)
  | ok d =>
    rw [hb] at h
    have h' : (.ok (⟨createRecNumField recNum, createPCRField pcr, d, event.getTLV⟩ :
        Record) : Except CelErr Record) = .ok r := h
    cases h'
    exact ⟨rfl, rfl, rfl⟩

theorem appendEvent_ok_inv (c : CEL) (pcr : Nat) (hashAlgos : List HashAlg)
    (event : Content) (c' : CEL) (h : appendEvent c pcr hashAlgos event = .ok c') :
    ∃ r, c'.Records = c.Records ++ [r] ∧
      r.RECNUM = createRecNumField c.Records.length := by
  rw [appendEvent] at h
  by_cases he : hashAlgos.isEmpty = true
  · rw [if_pos he] at h
    exact absurd h (by simp)
  · rw [if_neg he] at h
    cases hg : generateDigestsMap hashAlgos event [] with
    | error e =>
      rw [hg] at h
      exact absurd h (by simp)
    | ok digestsMap =>
      rw [hg] at h
      have h1 : (match createCELR c.Records.length (pcr % 2 ^ 8) digestsMap event with
          | .error e => (.error e : Except CelErr CEL)
          | .ok celr => .ok ⟨c.Records ++ [celr]⟩) = .ok c' := h
      cases hc : createCELR c.Records.length (pcr % 2 ^ 8) digestsMap event with
      | error e =>
        rw [hc] at h1
        exact absurd h1 (by simp)
      | ok celr =>
        rw [hc] at h1
        have h2 : (.ok (⟨c.Records ++ [celr]⟩ : CEL) : Except CelErr CEL) = .ok c' := h1
        cases h2
        exact ⟨celr, rfl, (createCELR_ok_fields _ _ _ _ _ hc).1⟩

theorem generateDigestsMap_error (event : Content) :
    ∀ hashAlgos : List HashAlg,
    (∃ a ∈ hashAlgos, ∃ e, event.generateDigest a = .error e) →
    ∀ acc, ∃ e', generateDigestsMap hashAlgos event acc = .error e' := by
  intro hashAlgos
  induction hashAlgos with
  | nil =>
    rintro ⟨a, ha, _⟩ _
    exact absurd ha (List.not_mem_nil a)
  | cons a rest ih =>
    rintro ⟨b, hb, e, he⟩ acc
    cases hga : event.generateDigest a with
    | error e0 => exact ⟨e0, by rw [generateDigestsMap, hga]⟩
    | ok d =>
      rcases List.mem_cons.mp hb with hba | hbr
      · subst hba
        rw [hga] at he
        exact absurd he (by simp)
      · obtain ⟨e', he'⟩ := ih ⟨b, hbr, e, he⟩ (insertReplace acc a d)
        refine ⟨e', ?_⟩
        rw [generateDigestsMap, hga]
        exact he'

/-- C7: `AppendEvent` fails when the requested algorithm list is empty
and when any digest request to the content fails — leaving the log
unchanged, since the Go method assigns to `c.Records` only in its final
statement, after every fallible step — and on success it appends exactly
one record, every existing record staying in place. -/
theorem c7_appendEvent_failure_and_append (c : CEL) (pcr : Nat)
    (hashAlgos : List HashAlg) (event : Content) :
    (hashAlgos = [] → appendEvent c pcr hashAlgos event = .error CelErr.needHashAlgorithm)
    ∧ ((∃ a ∈ hashAlgos, ∃ e, event.generateDigest a = .error e) →
        ∃ e', appendEvent c pcr hashAlgos event = .error e')
    ∧ (∀ c', appendEvent c pcr hashAlgos event = .ok c' →
        ∃ r, c'.Records = c.Records ++ [r]) := by
  refine ⟨fun hemp => by subst hemp; rfl, fun hfail => ?_, fun c' h => ?_⟩
  · cases hashAlgos with
    | nil =>
      obtain ⟨a, ha, _⟩ := hfail
      exact absurd ha (List.not_mem_nil a)
    | cons a rest =>
      obtain ⟨e', he'⟩ := generateDigestsMap_error event (a :: rest) hfail []
      refine ⟨e', ?_⟩
      rw [appendEvent, if_neg (by simp), he']
  · obtain ⟨r, hr, _⟩ := appendEvent_ok_inv c pcr hashAlgos event c' h
    exact ⟨r, hr⟩

/-- C7 witness: the theorem applied at concrete inputs — the empty
algorithm list, a content whose digest generation fails, and a
successful append of exactly one record to the empty log. -/
theorem c7_appendEvent_failure_and_append_witness :
    appendEvent ⟨[]⟩ 0 [] constContent = .error CelErr.needHashAlgorithm
    ∧ (∃ e', appendEvent ⟨[]⟩ 0 [HashAlg.sha1] failingContent = .error e')
    ∧ ∃ r, (⟨[⟨createRecNumField 0, createPCRField 3,
        ⟨digestsTypeValue, TLV.marshalBinary ⟨hashToAlgorithm .sha256,
          List.replicate 32 0⟩⟩, constContent.getTLV⟩]⟩ : CEL).Records =
      (⟨[]⟩ : CEL).Records ++ [r] :=
  ⟨(c7_appendEvent_failure_and_append ⟨[]⟩ 0 [] constContent).1 rfl,
    (c7_appendEvent_failure_and_append ⟨[]⟩ 0 [HashAlg.sha1] failingContent).2.1
      ⟨HashAlg.sha1, by decide, CelErr.contentError, rfl⟩,
    (c7_appendEvent_failure_and_append ⟨[]⟩ 3 [HashAlg.sha256] constContent).2.2
      _ (by rfl)⟩

theorem buildLog_recnum_invariant (reqs : List (Nat × List HashAlg × Content)) :
    ∀ c : CEL, (∀ (i : Nat) (hi : i < c.Records.length),
        c.Records[i].RECNUM = ⟨recnumTypeValue, natToBeBytes 8 i⟩) →
    ∀ cel, buildLog c reqs = .ok cel →
    ∀ (i : Nat) (hi : i < cel.Records.length),
      cel.Records[i].RECNUM = ⟨recnumTypeValue, natToBeBytes 8 i⟩ := by
  induction reqs with
  | nil =>
    intro c hc cel h i hi
    have h' : (.ok c : Except CelErr CEL) = .ok cel := h
    cases h'
    exact hc i hi
  | cons req rest ih =>
    intro c hc cel h i hi
    obtain ⟨pcr, hashAlgos, event⟩ := req
    rw [buildLog] at h
    cases ha : appendEvent c pcr hashAlgos event with
    | error e =>
      rw [ha] at h
      exact absurd h (by simp)
    | ok c1 =>
      rw [ha] at h
      have h' : buildLog c1 rest = .ok cel := h
      obtain ⟨r, hrec, hrn⟩ := appendEvent_ok_inv c pcr hashAlgos event c1 ha
      refine ih c1 ?_ cel h' i hi
      intro j hj
      simp only [hrec] at hj ⊢
      rcases Nat.lt_or_ge j c.Records.length with hlt | hge
      · rw [List.getElem_append_left hlt]
        exact hc j hlt
      · have hj' : j = c.Records.length := by
          simp only [List.length_append, List.length_singleton] at hj
          omega
        subst hj'
        rw [List.getElem_concat_length _ _ _ rfl]
        exact hrn.trans rfl

/-- C2: the record number is assigned by `AppendEvent` itself from the
record count at append time — a successful append adds one record whose
RECNUM TLV holds the eight-byte big-endian current length, with no
caller-supplied record number anywhere in the interface — so after any
sequence of successful appends to an empty log, `records[i]`'s RECNUM
value is the eight-byte big-endian encoding of `i`. -/
theorem c2_recnum_dense_sequence :
    (∀ (c : CEL) (pcr : Nat) (hashAlgos : List HashAlg) (event : Content) (c' : CEL),
        appendEvent c pcr hashAlgos event = .ok c' →
        ∃ r, c'.Records = c.Records ++ [r] ∧
          r.RECNUM = ⟨recnumTypeValue, natToBeBytes 8 c.Records.length⟩)
    ∧ (∀ (reqs : List (Nat × List HashAlg × Content)) (cel : CEL),
        buildLog ⟨[]⟩ reqs = .ok cel →
        ∀ (i : Nat) (hi : i < cel.Records.length),
          cel.Records[i].RECNUM = ⟨recnumTypeValue, natToBeBytes 8 i⟩) := by
  constructor
  · intro c pcr hashAlgos event c' h
    obtain ⟨r, hr, hrn⟩ := appendEvent_ok_inv c pcr hashAlgos event c' h
    exact ⟨r, hr, hrn.trans rfl⟩
  · intro reqs cel h i hi
    exact buildLog_recnum_invariant reqs ⟨[]⟩ (fun j hj => absurd hj (by simp)) cel h i hi

/-- C2 witness: the theorem applied to a one-append log built from the
empty log, the hypotheses discharged by evaluation: the single record's
RECNUM is the eight-byte big-endian zero. -/
theorem c2_recnum_dense_sequence_witness :
    (⟨[⟨createRecNumField 0, createPCRField 5,
        ⟨digestsTypeValue, TLV.marshalBinary ⟨hashToAlgorithm .sha256,
          List.replicate 32 0⟩⟩, constContent.getTLV⟩]⟩ : CEL).Records[0].RECNUM =
      ⟨recnumTypeValue, natToBeBytes 8 0⟩ :=
  c2_recnum_dense_sequence.2 [(5, [HashAlg.sha256], constContent)] _ (by rfl) 0 (by decide)

theorem validRecord_fields (r : Record) (h : validRecord r = true) :
    r.RECNUM.value.length < 2 ^ 32 ∧ r.PCR.value.length < 2 ^ 32 ∧
    r.Digests.value.length < 2 ^ 32 ∧ r.Content.value.length < 2 ^ 32 ∧
    r.RECNUM.type = recnumTypeValue ∧ r.PCR.type = pcrTypeValue ∧
    r.Digests.type = digestsTypeValue := by
  rw [validRecord] at h
  simp only [Bool.and_eq_true, wfTLV, beq_iff_eq, decide_eq_true_eq] at h
  tauto

theorem encodeCELR_ne (r : Record) : r.encodeCELR ≠ [] := by
  simp [Record.encodeCELR, TLV.marshalBinary]

theorem DecodeToCELR_encodeCELR (r : Record) (rest : List Nat)
    (h0 : r.RECNUM.value.length < 2 ^ 32) (h1 : r.PCR.value.length < 2 ^ 32)
    (h2 : r.Digests.value.length < 2 ^ 32) (h3 : r.Content.value.length < 2 ^ 32)
    (ht0 : r.RECNUM.type = recnumTypeValue) (ht1 : r.PCR.type = pcrTypeValue)
    (ht2 : r.Digests.type = digestsTypeValue) :
    DecodeToCELR (r.encodeCELR ++ rest) = .ok (r, rest) := by
  have hshape : r.encodeCELR ++ rest =
      r.RECNUM.marshalBinary ++ (r.PCR.marshalBinary ++ (r.Digests.marshalBinary ++
        (r.Content.marshalBinary ++ rest))) := by
    simp [Record.encodeCELR]
  have s1 := UnmarshalFirstTLV_marshalBinary r.RECNUM
    (r.PCR.marshalBinary ++ (r.Digests.marshalBinary ++ (r.Content.marshalBinary ++ rest))) h0
  have s2 := UnmarshalFirstTLV_marshalBinary r.PCR
    (r.Digests.marshalBinary ++ (r.Content.marshalBinary ++ rest)) h1
  have s3 := UnmarshalFirstTLV_marshalBinary r.Digests (r.Content.marshalBinary ++ rest) h2
  have s4 := UnmarshalFirstTLV_marshalBinary r.Content rest h3
  rw [hshape, DecodeToCELR, s1]
  show (if r.RECNUM.type ≠ recnumTypeValue then (.error CelErr.unexpectedType :
      Except CelErr (Record × List Nat))
    else match UnmarshalFirstTLV (r.PCR.marshalBinary ++ (r.Digests.marshalBinary ++
        (r.Content.marshalBinary ++ rest))) with
      | (.error e, _) => .error e
      | (.ok pcr, buf2) =>
        if pcr.type ≠ pcrTypeValue then .error CelErr.unexpectedType
        else
          match UnmarshalFirstTLV buf2 with
          | (.error e, _) => .error e
          | (.ok digests, buf3) =>
            if digests.type ≠ digestsTypeValue then .error CelErr.unexpectedType
            else
              match UnmarshalFirstTLV buf3 with
              | (.error e, _) => .error e
              | (.ok content, buf4) =>
                .ok (⟨r.RECNUM, pcr, digests, content⟩, buf4)) = .ok (r, rest)
  rw [if_neg (not_not_intro ht0), s2]
  show (if r.PCR.type ≠ pcrTypeValue then (.error CelErr.unexpectedType :
      Except CelErr (Record × List Nat))
    else match UnmarshalFirstTLV (r.Digests.marshalBinary ++
        (r.Content.marshalBinary ++ rest)) with
      | (.error e, _) => .error e
      | (.ok digests, buf3) =>
        if digests.type ≠ digestsTypeValue then .error CelErr.unexpectedType
        else
          match UnmarshalFirstTLV buf3 with
          | (.error e, _) => .error e
          | (.ok content, buf4) =>
            .ok (⟨r.RECNUM, r.PCR, digests, content⟩, buf4)) = .ok (r, rest)
  rw [if_neg (not_not_intro ht1), s3]
  show (if r.Digests.type ≠ digestsTypeValue then (.error CelErr.unexpectedType :
      Except CelErr (Record × List Nat))
    else match UnmarshalFirstTLV (r.Content.marshalBinary ++ rest) with
      | (.error e, _) => .error e
      | (.ok content, buf4) =>
        .ok (⟨r.RECNUM, r.PCR, r.Digests, content⟩, buf4)) = .ok (r, rest)
  rw [if_neg (not_not_intro ht2), s4]

theorem DecodeToCELAux_nonempty (fuel : Nat) (buf : List Nat) (h : buf ≠ []) :
    DecodeToCELAux (fuel + 1) buf =
      match DecodeToCELR buf with
      | .error CelErr.eof => .error CelErr.bufferEndsUnexpectedly
      | .error e => .error e
      | .ok (celr, rest) =>
        match DecodeToCELAux fuel rest with
        | .error e => .error e
        | .ok records => .ok (celr :: records) := by
  cases buf with
  | nil => exact absurd rfl h
  | cons b bs => rfl

theorem DecodeToCELAux_encodeRecords (records : List Record) :
    ∀ fuel : Nat, (encodeRecords records).length ≤ fuel →
    records.all validRecord = true →
    DecodeToCELAux fuel (encodeRecords records) = .ok records := by
  induction records with
  | nil =>
    intro fuel _ _
    cases fuel <;> rfl
  | cons r rs ih =>
    intro fuel hfuel hall
    have hv : validRecord r = true ∧ rs.all validRecord = true := by
      simpa using hall
    obtain ⟨h0, h1, h2, h3, ht0, ht1, ht2⟩ := validRecord_fields r hv.1
    have henc_ne : r.encodeCELR ≠ [] := encodeCELR_ne r
    have hpos : 0 < r.encodeCELR.length := List.length_pos.mpr henc_ne
    have hshape : encodeRecords (r :: rs) = r.encodeCELR ++ encodeRecords rs := rfl
    cases fuel with
    | zero =>
      exfalso
      rw [hshape, List.length_append] at hfuel
      omega
    | succ f =>
      have hbuf_ne : r.encodeCELR ++ encodeRecords rs ≠ [] := by
        intro hc
        exact henc_ne (List.append_eq_nil.mp hc).1
      rw [hshape, DecodeToCELAux_nonempty f _ hbuf_ne]
      rw [DecodeToCELR_encodeCELR r (encodeRecords rs) h0 h1 h2 h3 ht0 ht1 ht2]
      show (match DecodeToCELAux f (encodeRecords rs) with
        | .error e => (.error e : Except CelErr (List Record))
        | .ok records => .ok (r :: records)) = .ok (r :: rs)
      rw [ih f ?_ hv.2]
      rw [hshape, List.length_append] at hfuel
      omega

/-- C1: decoding inverts encoding: for every valid record (well-formed
TLVs with the RECNUM, PCR and DIGESTS type tags in place) decoding the
record's encoding returns an equal record, and for every log of valid
records `DecodeToCEL` applied to `EncodeCEL`'s output returns an equal
log. -/
theorem c1_encode_decode_roundtrip :
    (∀ (r : Record) (rest : List Nat), validRecord r = true →
        DecodeToCELR (r.encodeCELR ++ rest) = .ok (r, rest))
    ∧ (∀ c : CEL, c.Records.all validRecord = true →
        DecodeToCEL (EncodeCEL c) = .ok c) := by
  constructor
  · intro r rest h
    obtain ⟨h0, h1, h2, h3, ht0, ht1, ht2⟩ := validRecord_fields r h
    exact DecodeToCELR_encodeCELR r rest h0 h1 h2 h3 ht0 ht1 ht2
  · intro c hall
    rw [DecodeToCEL, EncodeCEL, DecodeToCELAux_encodeRecords c.Records _ le_rfl hall]

/-- C1 witness: the round-trip theorem applied to a concrete one-record
log, the validity hypothesis discharged by evaluation. -/
theorem c1_encode_decode_roundtrip_witness :
    DecodeToCEL (EncodeCEL ⟨[⟨⟨recnumTypeValue, natToBeBytes 8 0⟩, ⟨pcrTypeValue, [7]⟩,
        ⟨digestsTypeValue, []⟩, ⟨80, [1, 2]⟩⟩]⟩) =
      .ok ⟨[⟨⟨recnumTypeValue, natToBeBytes 8 0⟩, ⟨pcrTypeValue, [7]⟩,
        ⟨digestsTypeValue, []⟩, ⟨80, [1, 2]⟩⟩]⟩ :=
  c1_encode_decode_roundtrip.2 _ (by decide)

end Cel

namespace Tpm2tools

/-- C8: `computePCRValue` equals the spec's `extend_chain` — iteratively
`next = H(current || extension)` for each extension in order starting
from the base digest — and the empty extension sequence returns the base
unchanged; determinism is inherent in it being a function of its
inputs. -/
theorem c8_computePCRValue_chain (H : List Nat → List Nat) (base : List Nat)
    (extensions : List (List Nat)) :
    computePCRValue H base extensions = extendChain H base extensions
    ∧ computePCRValue H base [] = base := by
  refine ⟨?_, rfl⟩
  induction extensions generalizing base with
  | nil => rfl
  | cons e es ih =>
    simp only [computePCRValue, List.foldl_cons, extendChain] at ih ⊢
    exact ih (H (base ++ e))

/-- C4: sealing a secret under a `CurrentPCRs` assertion and immediately
unsealing the blob with a nil certify assertion, the register state
unchanged in between, succeeds and returns the secret unchanged. -/
theorem c4_seal_unseal_roundtrip (H : List Nat → List Nat) (st : RegState)
    (sel : PCRSelection) (secret : List Nat) :
    Unseal H st (Seal H st secret (.currentPCRs sel)) none = .ok secret := by
  simp [Seal, Unseal]

end Tpm2tools
